import Mathlib

/-!
Verification development for the minecraft-genie extraction pipeline.

The Python sources (src/data/web_scraping.py, src/data/embedder.py) are
shallowly embedded below: strings are lists of characters, HTML documents are
a tree datatype, and the left-to-right scan performed by Python's
`str.replace` and `re.sub` is modelled by an explicit scanner.
-/

namespace MGenie

abbrev Chars := List Char

/-- The whitespace characters stripped by Python's `str.strip()` and matched by
the regex class used in the sources (ASCII whitespace; the pages at issue use
only these). -/
def isPySpace (c : Char) : Bool :=
  c = ' ' || c = '\t' || c = '\n' || c = '\r' || c = Char.ofNat 11 || c = Char.ofNat 12

/-- Python `str.strip()`: remove leading and trailing whitespace. -/
def pyStrip (s : Chars) : Chars :=
  ((s.dropWhile isPySpace).reverse.dropWhile isPySpace).reverse

/-- Python `str.strip()` at the `String` level. -/
def pyStripS (s : String) : String := String.mk (pyStrip s.data)

/-- Python `str.lower()`, character-wise (the data is ASCII where it matters). -/
def pyLower (s : Chars) : Chars := s.map Char.toLower

/-- Boolean "p is a prefix of s" check. -/
def isPre : Chars → Chars → Bool
  | [], _ => true
  | _ :: _, [] => false
  | a :: as, b :: bs => a == b && isPre as bs

/-- Boolean "m occurs as a contiguous substring of s" check (Python `in`). -/
def isInfB (m : Chars) : Chars → Bool
  | [] => m.isEmpty
  | c :: t => isPre m (c :: t) || isInfB m t

/-- `m` occurs contiguously inside `s`. -/
def InfP (m s : Chars) : Prop := ∃ u v, s = u ++ m ++ v

/-- First applicable rewrite rule at this position (a rule is a pair of a
non-empty literal pattern and its replacement). -/
def findRule (rs : List (Chars × Chars)) (s : Chars) : Option (Chars × Chars) :=
  rs.find? (fun r => !r.1.isEmpty && isPre r.1 s)

/-- Fuel-driven worker for the scan; the fuel only bounds the recursion depth
and is always instantiated with the input length. -/
def scanGo (rs : List (Chars × Chars)) : Nat → Chars → Chars
  | _, [] => []
  | 0, s => s
  | fuel + 1, c :: cs =>
    match findRule rs (c :: cs) with
    | some pr => pr.2 ++ scanGo rs fuel (cs.drop (pr.1.length - 1))
    | none => c :: scanGo rs fuel cs

/-- One left-to-right, non-overlapping scan replacing each occurrence of the
first applicable rule's pattern, exactly as Python's `str.replace` (one rule)
and `re.sub` with a literal alternation (several rules) proceed. -/
def scanRules (rs : List (Chars × Chars)) (s : Chars) : Chars := scanGo rs s.length s

theorem scanGo_congr {rs : List (Chars × Chars)} :
    ∀ f1 f2 : Nat, ∀ s : Chars, s.length ≤ f1 → s.length ≤ f2 →
      scanGo rs f1 s = scanGo rs f2 s := by
  intro f1
  induction f1 with
  | zero =>
    intro f2 s h1 _
    rw [List.length_eq_zero.mp (Nat.le_zero.mp h1)]
    cases f2 <;> rfl
  | succ f ih =>
    intro f2 s h1 h2
    cases s with
    | nil => cases f2 <;> rfl
    | cons c cs =>
      cases f2 with
      | zero => simp at h2
      | succ f2 =>
        simp only [scanGo]
        simp only [List.length_cons] at h1 h2
        cases hfr : findRule rs (c :: cs) with
        | some pr =>
          have hl : (cs.drop (pr.1.length - 1)).length ≤ cs.length := by
            simp only [List.length_drop]
            omega
          dsimp only
          rw [ih f2 _ (le_trans hl (by omega)) (le_trans hl (by omega))]
        | none =>
          dsimp only
          rw [ih f2 cs (by omega) (by omega)]

theorem scanRules_nil {rs : List (Chars × Chars)} : scanRules rs [] = [] := rfl

/-- Python `s.replace(p, r)` for a non-empty literal `p`. -/
def pyReplace (p r s : Chars) : Chars := scanRules [(p, r)] s

/-! The literal characters appearing in embedder.normalize_text.  The source
file stores the fraction slash and the edition marker as the three-character
artifacts written out below. -/

def fracSp : Chars := [' ', Char.ofNat 0x201A, Char.ofNat 0xC5, Char.ofNat 0xD1, ' ']

def frac : Chars := [Char.ofNat 0x201A, Char.ofNat 0xC5, Char.ofNat 0xD1]

def zwnj : Char := Char.ofNat 0x200C

def zwsp : Char := Char.ofNat 0x200B

def editionMark : Chars := [Char.ofNat 0x201A, Char.ofNat 0xC4, Char.ofNat 0xE5]

def patBE : Chars := editionMark ++ "[BE only]".data

def patJE : Chars := editionMark ++ "[JE only]".data

def repBE : Chars := " [BE only]".data

def repJE : Chars := " [JE only]".data

/-- The two branches of `re.sub(r"<mark>\[(BE|JE) only\]", r" [\1 only]", _)`,
tried in the regex engine's order. -/
def editionRules : List (Chars × Chars) := [(patBE, repBE), (patJE, repJE)]

/-- embedder.normalize_text, step for step. -/
def normalizeTextL (s : Chars) : Chars :=
  let s1 := pyReplace fracSp ['/'] s
  let s2 := pyReplace frac ['/'] s1
  let s3 := pyReplace [zwnj] [] s2
  let s4 := pyReplace [zwsp] [] s3
  if isInfB patBE s4 || isInfB patJE s4 then scanRules editionRules s4 else s4

/-- embedder.normalize_text at the `String` level. -/
def normalize_text (s : String) : String := String.mk (normalizeTextL s.data)

/-- embedder.filter_redundant_text: `len(text.strip()) > 30`. -/
def filter_redundant_text (text : String) : Bool :=
  30 < (pyStrip text.data).length

/-- The chunk filtering step of embedder.split_and_prepare_documents:
`filter(filter_redundant_text, chunks)`. -/
def filteredChunks (chunks : List String) : List String :=
  chunks.filter filter_redundant_text

/-! ### Basic facts about the scanner -/

/-- Two character sequences overlap-at-origin: one starts with the other. -/
def ovl (a b : Chars) : Bool := isPre a b || isPre b a

theorem isPre_iff {p s : Chars} : isPre p s = true ↔ ∃ t, s = p ++ t := by
  induction p generalizing s with
  | nil => simp [isPre]
  | cons a as ih =>
    cases s with
    | nil => simp [isPre]
    | cons b bs =>
      simp only [isPre, Bool.and_eq_true, beq_iff_eq, ih, List.cons_append]
      constructor
      · rintro ⟨rfl, t, rfl⟩; exact ⟨t, rfl⟩
      · rintro ⟨t, ht⟩
        injection ht with h1 h2
        exact ⟨h1.symm, t, h2⟩

theorem isPre_self_append {p t : Chars} : isPre p (p ++ t) = true :=
  isPre_iff.mpr ⟨t, rfl⟩

theorem pre_of_pre_le {a b s : Chars} (ha : isPre a s = true) (hb : isPre b s = true)
    (h : a.length ≤ b.length) : isPre a b = true := by
  rcases isPre_iff.mp ha with ⟨t1, rfl⟩
  rcases isPre_iff.mp hb with ⟨t2, h2⟩
  have htake : a = b.take a.length := by
    have h3 := congrArg (List.take a.length) h2
    simpa [List.take_append_of_le_length h] using h3
  refine isPre_iff.mpr ⟨b.drop a.length, ?_⟩
  conv_lhs => rw [← List.take_append_drop a.length b]
  rw [← htake]

theorem pre_total {a b s : Chars} (ha : isPre a s = true) (hb : isPre b s = true) :
    isPre a b = true ∨ isPre b a = true := by
  rcases le_total a.length b.length with h | h
  · exact Or.inl (pre_of_pre_le ha hb h)
  · exact Or.inr (pre_of_pre_le hb ha h)

theorem pre_split {p u w : Chars} (h : isPre p (u ++ w) = true) :
    (p.length ≤ u.length ∧ isPre p u = true) ∨
    (u.length ≤ p.length ∧ isPre u p = true ∧ isPre (p.drop u.length) w = true) := by
  rcases le_total p.length u.length with hle | hle
  · exact Or.inl ⟨hle, pre_of_pre_le h isPre_self_append hle⟩
  · have hu : isPre u p = true := pre_of_pre_le isPre_self_append h hle
    refine Or.inr ⟨hle, hu, ?_⟩
    rcases isPre_iff.mp hu with ⟨t2, ht2⟩
    rcases isPre_iff.mp h with ⟨t, ht⟩
    have ht2' : p.drop u.length = t2 := by rw [ht2]; simp
    rw [ht2']
    refine isPre_iff.mpr ⟨t, ?_⟩
    rw [ht2] at ht
    simpa [List.append_assoc] using ht

theorem InfP_cons {m : Chars} {c : Char} {t : Chars} :
    InfP m (c :: t) ↔ isPre m (c :: t) = true ∨ InfP m t := by
  constructor
  · rintro ⟨u, v, huv⟩
    cases u with
    | nil =>
      exact Or.inl (isPre_iff.mpr ⟨v, by simpa using huv⟩)
    | cons x u' =>
      injection huv with h1 h2
      exact Or.inr ⟨u', v, h2⟩
  · rintro (h | ⟨u, v, rfl⟩)
    · rcases isPre_iff.mp h with ⟨t2, ht2⟩
      exact ⟨[], t2, by simpa using ht2⟩
    · exact ⟨c :: u, v, rfl⟩

theorem InfP_of_pre {m s : Chars} (h : isPre m s = true) : InfP m s := by
  rcases isPre_iff.mp h with ⟨t, rfl⟩
  exact ⟨[], t, by simp⟩

theorem InfP_nil {m : Chars} : InfP m [] ↔ m = [] := by
  constructor
  · rintro ⟨u, v, h⟩
    rcases List.append_eq_nil.mp ((List.append_eq_nil.mp h.symm).1) with ⟨_, h2⟩
    exact h2
  · rintro rfl; exact ⟨[], [], rfl⟩

theorem InfP_self {m : Chars} : InfP m m := ⟨[], [], by simp⟩

theorem InfP_append_left {m t : Chars} (r : Chars) (h : InfP m t) : InfP m (r ++ t) := by
  rcases h with ⟨u, v, rfl⟩
  exact ⟨r ++ u, v, by simp [List.append_assoc]⟩

theorem InfP_cons_tail {m t : Chars} (c : Char) (h : InfP m t) : InfP m (c :: t) :=
  InfP_cons.mpr (Or.inr h)

theorem InfP_drop {m s : Chars} (k : Nat) (h : InfP m (s.drop k)) : InfP m s := by
  have := InfP_append_left (s.take k) h
  rwa [List.take_append_drop] at this

theorem InfP_isInfB {m s : Chars} : InfP m s ↔ isInfB m s = true := by
  induction s with
  | nil =>
    simp only [isInfB, List.isEmpty_iff, InfP_nil]
  | cons c t ih =>
    simp only [isInfB, Bool.or_eq_true, InfP_cons, ih]

theorem InfP_single {c : Char} {s : Chars} : InfP [c] s ↔ c ∈ s := by
  induction s with
  | nil => simp [InfP_nil]
  | cons b t ih =>
    rw [InfP_cons]
    simp [isPre, ih]

theorem findRule_some {rs : List (Chars × Chars)} {s : Chars} {pr : Chars × Chars}
    (h : findRule rs s = some pr) :
    pr ∈ rs ∧ pr.1 ≠ [] ∧ isPre pr.1 s = true := by
  refine ⟨List.mem_of_find?_eq_some h, ?_, ?_⟩
  · have h2 := List.find?_some h
    simp only [Bool.and_eq_true] at h2
    intro hc
    rw [hc] at h2
    simp at h2
  · have h2 := List.find?_some h
    simp only [Bool.and_eq_true] at h2
    exact h2.2

theorem findRule_none {rs : List (Chars × Chars)} {s : Chars}
    (h : findRule rs s = none) :
    ∀ pr ∈ rs, pr.1 ≠ [] → isPre pr.1 s = false := by
  intro pr hm hne
  have h2 := List.find?_eq_none.mp h pr hm
  have h3 : pr.1.isEmpty = false := by
    cases hp : pr.1 with
    | nil => exact absurd hp hne
    | cons a as => simp
  simpa [h3] using h2

theorem scan_cons_some {rs : List (Chars × Chars)} {c : Char} {cs : Chars}
    {pr : Chars × Chars} (h : findRule rs (c :: cs) = some pr) :
    scanRules rs (c :: cs) = pr.2 ++ scanRules rs ((c :: cs).drop pr.1.length) := by
  have hne := (findRule_some h).2.1
  have hlen : 0 < pr.1.length := List.length_pos.mpr hne
  have hd : (c :: cs).drop pr.1.length = cs.drop (pr.1.length - 1) := by
    cases hp : pr.1 with
    | nil => exact absurd hp hne
    | cons a as => simp [hp]
  rw [hd]
  show scanGo rs (cs.length + 1) (c :: cs) = _
  simp only [scanGo, h]
  rw [scanGo_congr cs.length (cs.drop (pr.1.length - 1)).length (cs.drop (pr.1.length - 1))
    (by simp only [List.length_drop]; omega) le_rfl]
  rfl

theorem scan_cons_none {rs : List (Chars × Chars)} {c : Char} {cs : Chars}
    (h : findRule rs (c :: cs) = none) :
    scanRules rs (c :: cs) = c :: scanRules rs cs := by
  show scanGo rs (cs.length + 1) (c :: cs) = _
  simp only [scanGo, h]
  rfl

/-! ### Structural lemmas about left-to-right scanning -/

/-- A scan does nothing when no pattern occurs anywhere. -/
theorem scan_id {rs : List (Chars × Chars)} :
    ∀ s : Chars, (∀ pr ∈ rs, pr.1 ≠ [] → ¬ InfP pr.1 s) → scanRules rs s = s := by
  intro s
  induction s with
  | nil => intro _; exact scanRules_nil
  | cons c cs ih =>
    intro h
    have hfr : findRule rs (c :: cs) = none := by
      refine List.find?_eq_none.mpr ?_
      intro pr hm
      by_cases hne : pr.1 = []
      · simp [hne]
      · intro hc
        simp only [Bool.and_eq_true] at hc
        exact h pr hm hne (InfP_of_pre hc.2)
    rw [scan_cons_none hfr]
    rw [ih (fun pr hm hne hinf => h pr hm hne (InfP_cons_tail c hinf))]

/-- Characters of a scan's output come from the input or from a replacement. -/
theorem mem_scan {rs : List (Chars × Chars)} :
    ∀ s : Chars, ∀ a : Char, a ∈ scanRules rs s → a ∈ s ∨ ∃ pr ∈ rs, a ∈ pr.2 := by
  suffices H : ∀ n, ∀ s : Chars, s.length ≤ n →
      ∀ a : Char, a ∈ scanRules rs s → a ∈ s ∨ ∃ pr ∈ rs, a ∈ pr.2 by
    exact fun s => H s.length s le_rfl
  intro n
  induction n with
  | zero =>
    intro s hlen a ha
    rw [List.length_eq_zero.mp (Nat.le_zero.mp hlen)] at ha ⊢
    rw [scanRules_nil] at ha
    exact absurd ha (List.not_mem_nil a)
  | succ n ihn =>
    intro s hlen a ha
    cases s with
    | nil =>
      rw [scanRules_nil] at ha
      exact absurd ha (List.not_mem_nil a)
    | cons c cs =>
      cases hfr : findRule rs (c :: cs) with
      | some pr =>
        rw [scan_cons_some hfr] at ha
        rcases List.mem_append.mp ha with h1 | h1
        · exact Or.inr ⟨pr, (findRule_some hfr).1, h1⟩
        · have hlen2 : ((c :: cs).drop pr.1.length).length ≤ n := by
            have hp := List.length_pos.mpr (findRule_some hfr).2.1
            have hl : cs.length + 1 ≤ n + 1 := by simpa using hlen
            simp only [List.length_drop, List.length_cons]
            omega
          rcases ihn _ hlen2 a h1 with h2 | h2
          · exact Or.inl (List.mem_of_mem_drop h2)
          · exact Or.inr h2
      | none =>
        rw [scan_cons_none hfr] at ha
        rcases List.mem_cons.mp ha with h1 | h1
        · exact Or.inl (h1 ▸ List.mem_cons_self c cs)
        · rcases ihn cs (by simp only [List.length_cons] at hlen; omega) a h1 with h2 | h2
          · exact Or.inl (List.mem_cons_of_mem c h2)
          · exact Or.inr h2

/-- A block `m` at the front of the input is copied verbatim when no pattern
can overlap any position of `m`. -/
theorem scan_keep_front {rs : List (Chars × Chars)} :
    ∀ m : Chars, (∀ pr ∈ rs, ∀ j < m.length, ovl pr.1 (m.drop j) = false) →
    ∀ y : Chars, scanRules rs (m ++ y) = m ++ scanRules rs y := by
  intro m
  induction m with
  | nil => intro _ y; simp
  | cons c m' ih =>
    intro h y
    have hfr : findRule rs (c :: (m' ++ y)) = none := by
      refine List.find?_eq_none.mpr ?_
      intro pr hm hc
      simp only [Bool.and_eq_true] at hc
      have h0 := h pr hm 0 (by simp)
      simp only [List.drop_zero] at h0
      have hsp : isPre pr.1 ((c :: m') ++ y) = true := by simpa using hc.2
      rcases pre_split hsp with ⟨_, hp⟩ | ⟨_, hp, _⟩
      · rw [ovl, hp] at h0; simp at h0
      · rw [ovl, hp] at h0; simp at h0
    have hstep : scanRules rs ((c :: m') ++ y) = c :: scanRules rs (m' ++ y) := by
      simpa using scan_cons_none hfr
    rw [hstep, ih (fun pr hm j hj => by
      have := h pr hm (j + 1) (by simpa using Nat.succ_lt_succ hj)
      simpa using this) y]
    rfl

/-- An occurrence of `q` cannot start inside an appended block `r` that `q`
cannot overlap. -/
theorem scan_jump_rep {q r : Chars}
    (hr : ∀ j < r.length, ovl q (r.drop j) = false) :
    ∀ t : Chars, InfP q (r ++ t) → InfP q t := by
  induction r with
  | nil => intro t h; simpa using h
  | cons a r' ih =>
    intro t h
    rcases InfP_cons.mp (by simpa using h) with h1 | h1
    · exfalso
      have h0 := hr 0 (by simp)
      simp only [List.drop_zero] at h0
      have hsp : isPre q ((a :: r') ++ t) = true := by simpa using h1
      rcases pre_split hsp with ⟨_, hp⟩ | ⟨_, hp, _⟩
      · rw [ovl, hp] at h0; simp at h0
      · rw [ovl, hp] at h0; simp at h0
    · exact ih (fun j hj => by
        have := hr (j + 1) (by simpa using Nat.succ_lt_succ hj)
        simpa using this) t h1

/-- If a proper suffix of `q` is a prefix of the scan's output, it already was
a prefix of the input (no replacement can contribute to it). -/
theorem scan_suffix_pre {rs : List (Chars × Chars)} {q : Chars}
    (hF : ∀ pr ∈ rs, ∀ k < q.length, 0 < k → ovl (q.drop k) pr.2 = false) :
    ∀ s : Chars, ∀ k, 0 < k → k ≤ q.length →
      isPre (q.drop k) (scanRules rs s) = true → isPre (q.drop k) s = true := by
  intro s
  induction s with
  | nil =>
    intro k _ _ h
    rw [scanRules_nil] at h
    cases hq : q.drop k with
    | nil => simp [isPre]
    | cons x xs => rw [hq] at h; simp [isPre] at h
  | cons c cs ih =>
    intro k h0 hk h
    by_cases hqk : q.length ≤ k
    · rw [List.drop_eq_nil_of_le hqk]
      simp [isPre]
    · push_neg at hqk
      cases hfr : findRule rs (c :: cs) with
      | some pr =>
        exfalso
        rw [scan_cons_some hfr] at h
        have hov := hF pr (findRule_some hfr).1 k hqk h0
        rcases pre_split h with ⟨_, hp⟩ | ⟨_, hp, _⟩
        · rw [ovl, hp] at hov; simp at hov
        · rw [ovl, hp] at hov; simp at hov
      | none =>
        rw [scan_cons_none hfr] at h
        have hdk : q.drop k = q.get ⟨k, hqk⟩ :: q.drop (k + 1) := by
          simpa using List.drop_eq_getElem_cons hqk
        rw [hdk] at h ⊢
        simp only [isPre, Bool.and_eq_true] at h ⊢
        exact ⟨h.1, ih (k + 1) (Nat.succ_pos k) hqk h.2⟩

/-- After scanning, no pattern of the rule set occurs any more, provided no
replacement can recreate one and no pattern suffix can combine with one. -/
theorem scan_no_pat {rs : List (Chars × Chars)} {q rq : Chars}
    (hmem : (q, rq) ∈ rs) (hqne : q ≠ [])
    (hE : ∀ pr ∈ rs, ∀ j < pr.2.length, ovl q (pr.2.drop j) = false)
    (hF : ∀ pr ∈ rs, ∀ k < q.length, 0 < k → ovl (q.drop k) pr.2 = false) :
    ∀ s : Chars, ¬ InfP q (scanRules rs s) := by
  suffices H : ∀ n, ∀ s : Chars, s.length ≤ n → ¬ InfP q (scanRules rs s) by
    exact fun s => H s.length s le_rfl
  intro n
  induction n with
  | zero =>
    intro s hlen hq
    rw [List.length_eq_zero.mp (Nat.le_zero.mp hlen)] at hq
    rw [scanRules_nil] at hq
    exact hqne (InfP_nil.mp hq)
  | succ n ihn =>
    intro s hlen hq
    cases s with
    | nil =>
      rw [scanRules_nil] at hq
      exact hqne (InfP_nil.mp hq)
    | cons c cs =>
      cases hfr : findRule rs (c :: cs) with
      | some pr =>
        rw [scan_cons_some hfr] at hq
        have hq2 := scan_jump_rep (fun j hj => hE pr (findRule_some hfr).1 j hj) _ hq
        have hlen2 : ((c :: cs).drop pr.1.length).length ≤ n := by
          have hp := List.length_pos.mpr (findRule_some hfr).2.1
          have hl : cs.length + 1 ≤ n + 1 := by simpa using hlen
          simp only [List.length_drop, List.length_cons]
          omega
        exact ihn _ hlen2 hq2
      | none =>
        rw [scan_cons_none hfr] at hq
        have hlen1 : cs.length ≤ n := by simpa using hlen
        rcases InfP_cons.mp hq with h1 | h1
        · cases hqc : q with
          | nil => exact hqne hqc
          | cons x q' =>
            rw [hqc] at h1
            simp only [isPre, Bool.and_eq_true, beq_iff_eq] at h1
            obtain ⟨hxc, h2⟩ := h1
            have hq1 : q.drop 1 = q' := by rw [hqc]; simp
            have h3 : isPre q' cs = true := by
              have := scan_suffix_pre hF cs 1 Nat.one_pos
                (by rw [hqc]; simp) (by rw [hq1]; exact h2)
              rwa [hq1] at this
            have h4 : isPre q (c :: cs) = true := by
              rw [hqc]
              simp only [isPre, Bool.and_eq_true, beq_iff_eq]
              exact ⟨hxc, h3⟩
            have h5 := findRule_none hfr (q, rq) hmem hqne
            rw [h4] at h5
            exact Bool.true_eq_false.mp h5
        · exact ihn cs hlen1 h1

/-- Scanning cannot create a new occurrence of `q`: if `q` occurs afterwards,
it occurred before. -/
theorem scan_no_new {rs : List (Chars × Chars)} {q : Chars}
    (hqne : q ≠ [])
    (hE : ∀ pr ∈ rs, ∀ j < pr.2.length, ovl q (pr.2.drop j) = false)
    (hF : ∀ pr ∈ rs, ∀ k < q.length, 0 < k → ovl (q.drop k) pr.2 = false) :
    ∀ s : Chars, InfP q (scanRules rs s) → InfP q s := by
  suffices H : ∀ n, ∀ s : Chars, s.length ≤ n → InfP q (scanRules rs s) → InfP q s by
    exact fun s => H s.length s le_rfl
  intro n
  induction n with
  | zero =>
    intro s hlen hq
    rw [List.length_eq_zero.mp (Nat.le_zero.mp hlen)] at hq ⊢
    rwa [scanRules_nil] at hq
  | succ n ihn =>
    intro s hlen hq
    cases s with
    | nil => rwa [scanRules_nil] at hq
    | cons c cs =>
      cases hfr : findRule rs (c :: cs) with
      | some pr =>
        rw [scan_cons_some hfr] at hq
        have hq2 := scan_jump_rep (fun j hj => hE pr (findRule_some hfr).1 j hj) _ hq
        have hlen2 : ((c :: cs).drop pr.1.length).length ≤ n := by
          have hp := List.length_pos.mpr (findRule_some hfr).2.1
          have hl : cs.length + 1 ≤ n + 1 := by simpa using hlen
          simp only [List.length_drop, List.length_cons]
          omega
        exact InfP_drop _ (ihn _ hlen2 hq2)
      | none =>
        rw [scan_cons_none hfr] at hq
        have hlen1 : cs.length ≤ n := by simpa using hlen
        rcases InfP_cons.mp hq with h1 | h1
        · cases hqc : q with
          | nil => exact absurd hqc hqne
          | cons x q' =>
            rw [hqc] at h1
            simp only [isPre, Bool.and_eq_true, beq_iff_eq] at h1
            obtain ⟨hxc, h2⟩ := h1
            have hq1 : q.drop 1 = q' := by rw [hqc]; simp
            have h3 : isPre q' cs = true := by
              have := scan_suffix_pre hF cs 1 Nat.one_pos
                (by rw [hqc]; simp) (by rw [hq1]; exact h2)
              rwa [hq1] at this
            refine InfP_of_pre ?_
            simp only [isPre, Bool.and_eq_true, beq_iff_eq]
            exact ⟨hxc, h3⟩
        · exact InfP_cons_tail c (ihn cs hlen1 h1)

/-- Every occurrence of the pattern `q` of rule `(q, rq)` is rewritten: the
output contains `rq` whenever the input contained `q`. -/
theorem scan_rep_every {rs : List (Chars × Chars)} {q rq : Chars}
    (hmem : (q, rq) ∈ rs) (hqne : q ≠ [])
    (hA : ∀ pr ∈ rs, pr.1 = q → pr.2 = rq)
    (hB : ∀ pr ∈ rs, pr.1 ≠ q → ∀ k < pr.1.length, ovl (pr.1.drop k) q = false) :
    ∀ s : Chars, InfP q s → InfP rq (scanRules rs s) := by
  suffices H : ∀ n, ∀ s : Chars, s.length ≤ n → InfP q s → InfP rq (scanRules rs s) by
    exact fun s => H s.length s le_rfl
  intro n
  induction n with
  | zero =>
    intro s hlen hq
    rw [List.length_eq_zero.mp (Nat.le_zero.mp hlen)] at hq
    exact absurd hqne (by simp [InfP_nil.mp hq])
  | succ n ihn =>
    intro s hlen hq
    cases s with
    | nil => exact absurd hqne (by simp [InfP_nil.mp hq])
    | cons c cs =>
      rcases hq with ⟨u, v, huv⟩
      cases hfr : findRule rs (c :: cs) with
      | some pr =>
        rw [scan_cons_some hfr]
        by_cases hprq : pr.1 = q
        · rw [hA pr (findRule_some hfr).1 hprq]
          exact ⟨[], scanRules rs ((c :: cs).drop pr.1.length), by simp⟩
        · have hpre : isPre pr.1 (u ++ (q ++ v)) = true := by
            have := (findRule_some hfr).2.2
            rw [huv] at this
            simpa [List.append_assoc] using this
          have hdecomp : pr.1.length ≤ u.length →
              InfP rq (pr.2 ++ scanRules rs ((c :: cs).drop pr.1.length)) := by
            intro hle
            have hd : (c :: cs).drop pr.1.length = u.drop pr.1.length ++ (q ++ v) := by
              rw [huv]
              rw [List.append_assoc]
              exact List.drop_append_of_le_length hle
            have hinf : InfP q ((c :: cs).drop pr.1.length) := by
              rw [hd]
              exact ⟨u.drop pr.1.length, v, by simp [List.append_assoc]⟩
            have hlen2 : ((c :: cs).drop pr.1.length).length ≤ n := by
              have hp := List.length_pos.mpr (findRule_some hfr).2.1
              have hl : cs.length + 1 ≤ n + 1 := by simpa using hlen
              simp only [List.length_drop, List.length_cons]
              omega
            exact InfP_append_left pr.2 (ihn _ hlen2 hinf)
          rcases pre_split hpre with ⟨hle, _⟩ | ⟨hge, _, hdrop⟩
          · exact hdecomp hle
          · rcases Nat.lt_or_ge u.length pr.1.length with hlt | hge2
            · exfalso
              have hov := hB pr (findRule_some hfr).1 hprq u.length hlt
              rcases pre_split hdrop with ⟨_, hp⟩ | ⟨_, hp, _⟩
              · rw [ovl, hp] at hov; simp at hov
              · rw [ovl, hp] at hov; simp at hov
            · exact hdecomp hge2
      | none =>
        cases u with
        | nil =>
          exfalso
          have h4 : isPre q (c :: cs) = true := by
            rw [huv]
            simpa using (isPre_self_append (p := q) (t := v))
          have h5 := findRule_none hfr (q, rq) hmem hqne
          rw [h4] at h5
          exact Bool.true_eq_false.mp h5
        | cons x u' =>
          rw [scan_cons_none hfr]
          injection huv with h1 h2
          have hlen1 : cs.length ≤ n := by simpa using hlen
          exact InfP_cons_tail c (ihn cs hlen1 ⟨u', v, h2⟩)

/-- A block `m` occurring anywhere in the input is still present after the
scan, when no pattern can overlap any position of `m`. -/
theorem scan_keep_inf {rs : List (Chars × Chars)} {m : Chars}
    (h1 : ∀ pr ∈ rs, ∀ j < m.length, ovl pr.1 (m.drop j) = false)
    (h2 : ∀ pr ∈ rs, ∀ k < pr.1.length, 0 < k → ovl (pr.1.drop k) m = false) :
    ∀ s : Chars, InfP m s → InfP m (scanRules rs s) := by
  by_cases hm0 : m = []
  · intro s _
    subst hm0
    exact ⟨[], scanRules rs s, by simp⟩
  suffices H : ∀ n, ∀ s : Chars, s.length ≤ n → InfP m s → InfP m (scanRules rs s) by
    exact fun s => H s.length s le_rfl
  intro n
  induction n with
  | zero =>
    intro s hlen hm
    rw [List.length_eq_zero.mp (Nat.le_zero.mp hlen)] at hm ⊢
    rw [scanRules_nil]
    exact hm
  | succ n ihn =>
    intro s hlen hm
    cases s with
    | nil => rw [scanRules_nil]; exact hm
    | cons c cs =>
      rcases hm with ⟨u, v, huv⟩
      cases hfr : findRule rs (c :: cs) with
      | some pr =>
        rw [scan_cons_some hfr]
        have hpre : isPre pr.1 (u ++ (m ++ v)) = true := by
          have := (findRule_some hfr).2.2
          rw [huv] at this
          simpa [List.append_assoc] using this
        have hdecomp : pr.1.length ≤ u.length →
            InfP m (pr.2 ++ scanRules rs ((c :: cs).drop pr.1.length)) := by
          intro hle
          have hd : (c :: cs).drop pr.1.length = u.drop pr.1.length ++ (m ++ v) := by
            rw [huv]
            rw [List.append_assoc]
            exact List.drop_append_of_le_length hle
          have hinf : InfP m ((c :: cs).drop pr.1.length) := by
            rw [hd]
            exact ⟨u.drop pr.1.length, v, by simp [List.append_assoc]⟩
          have hlen2 : ((c :: cs).drop pr.1.length).length ≤ n := by
            have hp := List.length_pos.mpr (findRule_some hfr).2.1
            have hl : cs.length + 1 ≤ n + 1 := by simpa using hlen
            simp only [List.length_drop, List.length_cons]
            omega
          exact InfP_append_left pr.2 (ihn _ hlen2 hinf)
        rcases pre_split hpre with ⟨hle, _⟩ | ⟨hge, _, hdrop⟩
        · exact hdecomp hle
        · rcases Nat.lt_or_ge u.length pr.1.length with hlt | hge2
          · exfalso
            by_cases hu0 : u.length = 0
            · have hov := h1 pr (findRule_some hfr).1 0 (List.length_pos.mpr hm0)
              rw [hu0] at hdrop
              simp only [List.drop_zero] at hdrop hov
              rcases pre_split hdrop with ⟨_, hp⟩ | ⟨_, hp, _⟩
              · rw [ovl, hp] at hov; simp at hov
              · rw [ovl, hp] at hov; simp at hov
            · have hov := h2 pr (findRule_some hfr).1 u.length hlt (Nat.pos_of_ne_zero hu0)
              rcases pre_split hdrop with ⟨_, hp⟩ | ⟨_, hp, _⟩
              · rw [ovl, hp] at hov; simp at hov
              · rw [ovl, hp] at hov; simp at hov
          · exact hdecomp hge2
      | none =>
        cases u with
        | nil =>
          have hkeep := scan_keep_front m (fun pr hm j hj => h1 pr hm j hj) v
          have huv2 : c :: cs = m ++ v := by simpa using huv
          rw [huv2, hkeep]
          exact ⟨[], scanRules rs v, by simp⟩
        | cons x u' =>
          rw [scan_cons_none hfr]
          injection huv with hx h2'
          have hlen1 : cs.length ≤ n := by simpa using hlen
          exact InfP_cons_tail c (ihn cs hlen1 ⟨u', v, h2'⟩)

/-! ### Facts about normalize_text -/

theorem InfP_inner {a m b l : Chars} (h : InfP (a ++ m ++ b) l) : InfP m l := by
  rcases h with ⟨u, v, rfl⟩
  exact ⟨u ++ a, b ++ v, by simp [List.append_assoc]⟩

theorem pyReplace_def (p r s : Chars) : pyReplace p r s = scanRules [(p, r)] s := rfl

theorem mem_pyReplace {p r s : Chars} {a : Char} (h : a ∈ pyReplace p r s) :
    a ∈ s ∨ a ∈ r := by
  rcases mem_scan s a h with h1 | ⟨pr, hpr, h2⟩
  · exact Or.inl h1
  · simp only [List.mem_singleton] at hpr
    subst hpr
    exact Or.inr h2

/-- The first four replacement passes of embedder.normalize_text. -/
def normPre (s : Chars) : Chars :=
  pyReplace [zwsp] [] (pyReplace [zwnj] [] (pyReplace frac ['/'] (pyReplace fracSp ['/'] s)))

theorem normalizeTextL_eq (s : Chars) :
    normalizeTextL s =
      if isInfB patBE (normPre s) || isInfB patJE (normPre s)
      then scanRules editionRules (normPre s) else normPre s := rfl

theorem mem_normPre {s : Chars} {a : Char} (h : a ∈ normPre s) : a ∈ s ∨ a = '/' := by
  unfold normPre at h
  rcases mem_pyReplace h with h | h
  on_goal 2 => exact absurd h (List.not_mem_nil a)
  rcases mem_pyReplace h with h | h
  on_goal 2 => exact absurd h (List.not_mem_nil a)
  rcases mem_pyReplace h with h | h
  on_goal 2 => exact Or.inr (by simpa using h)
  rcases mem_pyReplace h with h | h
  · exact Or.inl h
  · exact Or.inr (by simpa using h)

theorem mem_normalizeTextL {s : Chars} {a : Char} (h : a ∈ normalizeTextL s) :
    a ∈ s ∨ a = '/' ∨ a ∈ repBE ∨ a ∈ repJE := by
  rw [normalizeTextL_eq] at h
  by_cases hc : (isInfB patBE (normPre s) || isInfB patJE (normPre s)) = true
  · rw [if_pos hc] at h
    rcases mem_scan _ _ h with h1 | ⟨pr, hpr, h2⟩
    · rcases mem_normPre h1 with h3 | h3
      · exact Or.inl h3
      · exact Or.inr (Or.inl h3)
    · rcases (by simpa [editionRules] using hpr : pr = (patBE, repBE) ∨ pr = (patJE, repJE)) with rfl | rfl
      · exact Or.inr (Or.inr (Or.inl h2))
      · exact Or.inr (Or.inr (Or.inr h2))
  · rw [if_neg hc] at h
    rcases mem_normPre h with h3 | h3
    · exact Or.inl h3
    · exact Or.inr (Or.inl h3)

/-- With no zero-width characters in the input, the zero-width passes are
identities and the first two passes eliminate every fraction sequence. -/
theorem normPre_no_zw {s : Chars} (h1 : zwnj ∉ s) (h2 : zwsp ∉ s) :
    normPre s = pyReplace frac ['/'] (pyReplace fracSp ['/'] s) ∧
    ¬ InfP frac (normPre s) ∧ zwnj ∉ normPre s ∧ zwsp ∉ normPre s := by
  have hz1 : zwnj ∉ pyReplace fracSp ['/'] s := fun hm => by
    rcases mem_pyReplace hm with hh | hh
    · exact h1 hh
    · simp [zwnj] at hh
  have hz2 : zwnj ∉ pyReplace frac ['/'] (pyReplace fracSp ['/'] s) := fun hm => by
    rcases mem_pyReplace hm with hh | hh
    · exact hz1 hh
    · simp [zwnj] at hh
  have hw1 : zwsp ∉ pyReplace fracSp ['/'] s := fun hm => by
    rcases mem_pyReplace hm with hh | hh
    · exact h2 hh
    · simp [zwsp] at hh
  have hw2 : zwsp ∉ pyReplace frac ['/'] (pyReplace fracSp ['/'] s) := fun hm => by
    rcases mem_pyReplace hm with hh | hh
    · exact hw1 hh
    · simp [zwsp] at hh
  have e3 : pyReplace [zwnj] [] (pyReplace frac ['/'] (pyReplace fracSp ['/'] s)) =
      pyReplace frac ['/'] (pyReplace fracSp ['/'] s) := by
    rw [pyReplace_def]
    refine scan_id _ ?_
    intro pr hpr hne hinf
    simp only [List.mem_singleton] at hpr
    subst hpr
    exact hz2 (InfP_single.mp hinf)
  have hw3 : zwsp ∉ pyReplace [zwnj] [] (pyReplace frac ['/'] (pyReplace fracSp ['/'] s)) := by
    rw [e3]; exact hw2
  have e4 : normPre s = pyReplace frac ['/'] (pyReplace fracSp ['/'] s) := by
    unfold normPre
    rw [show pyReplace [zwsp] [] (pyReplace [zwnj] [] (pyReplace frac ['/'] (pyReplace fracSp ['/'] s))) = pyReplace [zwnj] [] (pyReplace frac ['/'] (pyReplace fracSp ['/'] s)) from by
      rw [pyReplace_def]
      refine scan_id _ ?_
      intro pr hpr hne hinf
      simp only [List.mem_singleton] at hpr
      subst hpr
      exact hw3 (InfP_single.mp hinf)]
    exact e3
  refine ⟨e4, ?_, by rw [e4]; exact hz2, by rw [e4]; exact hw2⟩
  rw [e4, pyReplace_def]
  exact @scan_no_pat [(frac, ['/'])] frac ['/'] (by decide) (by decide) (by decide) (by decide) _

/-- **C3.** For every input containing the edition-marker artifact immediately
followed by "[BE only]" or "[JE only]", normalize_text turns every such
occurrence into a single space followed by the same bracketed edition marker:
the output contains " [BE only]" (resp. " [JE only]") and no marker-bracket
occurrence remains. -/
theorem c3_edition_marker_spacing (s : String) :
    (InfP patBE s.data →
      InfP repBE (normalize_text s).data ∧ ¬ InfP patBE (normalize_text s).data) ∧
    (InfP patJE s.data →
      InfP repJE (normalize_text s).data ∧ ¬ InfP patJE (normalize_text s).data) := by
  constructor
  · intro hbe
    have k1 := @scan_keep_inf [(fracSp, ['/'])] patBE
      (by decide) (by decide) s.data hbe
    have k2 := @scan_keep_inf [(frac, ['/'])] patBE
      (by decide) (by decide) _ k1
    have k3 := @scan_keep_inf [([zwnj], ([] : Chars))] patBE
      (by decide) (by decide) _ k2
    have k4 := @scan_keep_inf [([zwsp], ([] : Chars))] patBE
      (by decide) (by decide) _ k3
    have k5 : InfP patBE (normPre s.data) := k4
    have hcond : (isInfB patBE (normPre s.data) || isInfB patJE (normPre s.data)) = true := by
      rw [Bool.or_eq_true]
      exact Or.inl (InfP_isInfB.mp k5)
    have ht : (normalize_text s).data = scanRules editionRules (normPre s.data) := by
      show normalizeTextL s.data = _
      rw [normalizeTextL_eq, if_pos hcond]
    rw [ht]
    exact ⟨scan_rep_every (by decide) (by decide) (by decide) (by decide) _ k5,
           @scan_no_pat editionRules patBE repBE (by decide) (by decide) (by decide) (by decide) _⟩
  · intro hje
    have k1 := @scan_keep_inf [(fracSp, ['/'])] patJE
      (by decide) (by decide) s.data hje
    have k2 := @scan_keep_inf [(frac, ['/'])] patJE
      (by decide) (by decide) _ k1
    have k3 := @scan_keep_inf [([zwnj], ([] : Chars))] patJE
      (by decide) (by decide) _ k2
    have k4 := @scan_keep_inf [([zwsp], ([] : Chars))] patJE
      (by decide) (by decide) _ k3
    have k5 : InfP patJE (normPre s.data) := k4
    have hcond : (isInfB patBE (normPre s.data) || isInfB patJE (normPre s.data)) = true := by
      rw [Bool.or_eq_true]
      exact Or.inr (InfP_isInfB.mp k5)
    have ht : (normalize_text s).data = scanRules editionRules (normPre s.data) := by
      show normalizeTextL s.data = _
      rw [normalizeTextL_eq, if_pos hcond]
    rw [ht]
    exact ⟨scan_rep_every (by decide) (by decide) (by decide) (by decide) _ k5,
           @scan_no_pat editionRules patJE repJE (by decide) (by decide) (by decide) (by decide) _⟩

/-- Witness for C3 at a concrete input. -/
theorem c3_edition_marker_spacing_witness :
    InfP patBE (String.mk ("a".data ++ patBE ++ "b".data)).data ∧
    InfP repBE (normalize_text (String.mk ("a".data ++ patBE ++ "b".data))).data :=
  ⟨⟨"a".data, "b".data, rfl⟩,
   ((c3_edition_marker_spacing (String.mk ("a".data ++ patBE ++ "b".data))).1
      ⟨"a".data, "b".data, rfl⟩).1⟩

/-- Character-level idempotence of normalize_text on zero-width-free inputs. -/
theorem normalizeTextL_idem (s : Chars) (h1 : zwnj ∉ s) (h2 : zwsp ∉ s) :
    normalizeTextL (normalizeTextL s) = normalizeTextL s := by
  obtain ⟨e0, hfrac, hz, hw⟩ := normPre_no_zw h1 h2
  set t := normalizeTextL s with ht
  have hzt : zwnj ∉ t := fun hm => by
    rcases mem_normalizeTextL (ht ▸ hm) with h | h | h | h
    · exact h1 h
    · exact absurd h (by decide)
    · exact absurd h (by decide)
    · exact absurd h (by decide)
  have hwt : zwsp ∉ t := fun hm => by
    rcases mem_normalizeTextL (ht ▸ hm) with h | h | h | h
    · exact h2 h
    · exact absurd h (by decide)
    · exact absurd h (by decide)
    · exact absurd h (by decide)
  have hfr : ¬ InfP frac t := by
    rw [ht, normalizeTextL_eq]
    by_cases hc : (isInfB patBE (normPre s) || isInfB patJE (normPre s)) = true
    · rw [if_pos hc]
      intro hin
      exact hfrac (scan_no_new (by decide) (by decide) (by decide) _ hin)
    · rw [if_neg hc]
      exact hfrac
  have hfrsp : ¬ InfP fracSp t := by
    intro hin
    refine hfr (InfP_inner (a := [' ']) (b := [' ']) ?_)
    have hfs : fracSp = [' '] ++ frac ++ [' '] := by decide
    rwa [hfs] at hin
  have hbe : ¬ InfP patBE t := by
    rw [ht, normalizeTextL_eq]
    by_cases hc : (isInfB patBE (normPre s) || isInfB patJE (normPre s)) = true
    · rw [if_pos hc]
      exact @scan_no_pat editionRules patBE repBE (by decide) (by decide) (by decide) (by decide) _
    · rw [if_neg hc]
      intro hin
      exact hc (by rw [Bool.or_eq_true]; exact Or.inl (InfP_isInfB.mp hin))
  have hje : ¬ InfP patJE t := by
    rw [ht, normalizeTextL_eq]
    by_cases hc : (isInfB patBE (normPre s) || isInfB patJE (normPre s)) = true
    · rw [if_pos hc]
      exact @scan_no_pat editionRules patJE repJE (by decide) (by decide) (by decide) (by decide) _
    · rw [if_neg hc]
      intro hin
      exact hc (by rw [Bool.or_eq_true]; exact Or.inr (InfP_isInfB.mp hin))
  rw [normalizeTextL_eq t]
  have e1 : pyReplace fracSp ['/'] t = t := by
    rw [pyReplace_def]
    refine scan_id _ ?_
    intro pr hpr hne hinf
    simp only [List.mem_singleton] at hpr
    subst hpr
    exact hfrsp hinf
  have e2 : pyReplace frac ['/'] t = t := by
    rw [pyReplace_def]
    refine scan_id _ ?_
    intro pr hpr hne hinf
    simp only [List.mem_singleton] at hpr
    subst hpr
    exact hfr hinf
  have e3 : pyReplace [zwnj] [] t = t := by
    rw [pyReplace_def]
    refine scan_id _ ?_
    intro pr hpr hne hinf
    simp only [List.mem_singleton] at hpr
    subst hpr
    exact hzt (InfP_single.mp hinf)
  have e4 : pyReplace [zwsp] [] t = t := by
    rw [pyReplace_def]
    refine scan_id _ ?_
    intro pr hpr hne hinf
    simp only [List.mem_singleton] at hpr
    subst hpr
    exact hwt (InfP_single.mp hinf)
  have hnp : normPre t = t := by
    unfold normPre
    rw [e1, e2, e3, e4]
  rw [hnp]
  have hbeF : isInfB patBE t = false := by
    cases hb : isInfB patBE t
    · rfl
    · exact absurd (InfP_isInfB.mpr hb) hbe
  have hjeF : isInfB patJE t = false := by
    cases hb : isInfB patJE t
    · rfl
    · exact absurd (InfP_isInfB.mpr hb) hje
  rw [hbeF, hjeF]
  simp

/-- **C8 counterexample.** normalize_text is not idempotent: deleting the
zero-width non-joiner inside this four-character input splices the
fraction-slash artifact together, which only the second pass replaces. -/
theorem c8_normalize_not_idempotent :
    normalize_text (normalize_text
        (String.mk [Char.ofNat 0x201A, Char.ofNat 0xC5, zwnj, Char.ofNat 0xD1])) ≠
      normalize_text (String.mk [Char.ofNat 0x201A, Char.ofNat 0xC5, zwnj, Char.ofNat 0xD1]) := by
  decide

/-- **C8 amended.** normalize_text is idempotent on every input that contains
no zero-width non-joiner and no zero-width space character. -/
theorem c8_normalize_idempotent_no_zerowidth (s : String)
    (h1 : zwnj ∉ s.data) (h2 : zwsp ∉ s.data) :
    normalize_text (normalize_text s) = normalize_text s :=
  congrArg String.mk (normalizeTextL_idem s.data h1 h2)

/-- Witness for the amended C8 at a concrete input. -/
theorem c8_normalize_idempotent_no_zerowidth_witness :
    (zwnj ∉ "a creeper spawns".data ∧ zwsp ∉ "a creeper spawns".data) ∧
    normalize_text (normalize_text "a creeper spawns") = normalize_text "a creeper spawns" :=
  ⟨by decide,
   c8_normalize_idempotent_no_zerowidth "a creeper spawns" (by decide) (by decide)⟩

/-- **C4 counterexample.** A chunk whose trimmed length is exactly 30
characters is dropped by the filter (the code keeps `len > 30` only),
contrary to the claim that trimmed length exactly 30 is kept. -/
theorem c4_chunk_threshold_counterexample :
    (pyStrip (String.mk (List.replicate 30 'a')).data).length = 30 ∧
    filter_redundant_text (String.mk (List.replicate 30 'a')) = false ∧
    filteredChunks [String.mk (List.replicate 30 'a')] = [] := by
  decide

/-- **C4 amended.** A candidate chunk is kept exactly when its trimmed length
is strictly greater than 30, i.e. at least 31 characters; trimmed length 25 is
dropped, 31 is kept, and exactly 30 is dropped. -/
theorem c4_chunk_threshold (s : String) :
    (filter_redundant_text s = true ↔ 31 ≤ (pyStrip s.data).length) ∧
    filteredChunks [String.mk (List.replicate 25 'a')] = [] ∧
    filteredChunks [String.mk (List.replicate 31 'a')] =
      [String.mk (List.replicate 31 'a')] ∧
    filteredChunks [String.mk (List.replicate 30 'a')] = [] := by
  refine ⟨?_, by decide, by decide, by decide⟩
  simp only [filter_redundant_text, decide_eq_true_eq]
  omega

/-! ### Section filter (web_scraping._clean_scraped_text) -/

/-- Case-insensitive prefix test (re.IGNORECASE over the ASCII patterns used
by the section regexes). -/
def ciPre : Chars → Chars → Bool
  | [], _ => true
  | _ :: _, [] => false
  | a :: as, b :: bs => (a.toLower == b.toLower) && ciPre as bs

/-- The lookahead of the section regexes: some next-section header starts at
this position. -/
def secBoundary (bnds : List Chars) (l : Chars) : Bool := bnds.any (fun b => ciPre b l)

/-- `.*?` before the lookahead: skip to the first position where a boundary
starts, or to the end of the text. -/
def secSkip (bnds : List Chars) : Chars → Chars
  | [] => []
  | c :: cs => if secBoundary bnds (c :: cs) then c :: cs else secSkip bnds cs

/-- Fuel-driven worker for one section-removal regex
`re.sub(rf"<hdr>.*?(?=<bnd>|<bnd>|\Z)", "", text, flags=re.DOTALL | re.IGNORECASE)`;
the fuel is always the input length. -/
def secSubGo (hdr : Chars) (bnds : List Chars) : Nat → Chars → Chars
  | _, [] => []
  | 0, s => s
  | fuel + 1, c :: cs =>
    if ciPre hdr (c :: cs) then
      secSubGo hdr bnds fuel (secSkip bnds ((c :: cs).drop hdr.length))
    else c :: secSubGo hdr bnds fuel cs

/-- One section-removal pass of web_scraping._clean_scraped_text. -/
def secSub (hdr : Chars) (bnds : List Chars) (s : Chars) : Chars :=
  secSubGo hdr bnds s.length s

/-- The H2 denylist of web_scraping._clean_scraped_text. -/
def unwanted_h2_sections : List String :=
  ["Data values", "Sounds", "Video", "History", "Issues", "Gallery", "See also",
   "Screenshots", "References", "External links", "Navigation", "Changed recipes",
   "Complete recipe list"]

/-- The H3 denylist of web_scraping._clean_scraped_text. -/
def unwanted_h3_sections : List String :=
  ["Unused mobs", "Education mobs", "Removed mobs", "Joke mobs",
   "Unimplemented mobs", "Mentioned mobs", "Education blocks", "Removed blocks",
   "Joke blocks"]

def isLowerAZ (c : Char) : Bool := 'a' ≤ c && c ≤ 'z'

/-- `re.sub(r"↑[a-z]+(?=[A-Z]|\s|[^a-zA-Z])", "↑", _)`: the glyph, a maximal
run of one or more lowercase letters, and a lookahead which any following
character satisfies (a character that is not a lowercase letter is an
uppercase letter, whitespace, or a non-letter; shorter runs never satisfy the
lookahead because the next character is then a lowercase letter). -/
def footGo : Nat → Chars → Chars
  | _, [] => []
  | 0, s => s
  | fuel + 1, c :: cs =>
    if c = '↑' && !(cs.takeWhile isLowerAZ).isEmpty &&
        (cs.takeWhile isLowerAZ).length < cs.length then
      '↑' :: footGo fuel (cs.drop (cs.takeWhile isLowerAZ).length)
    else c :: footGo fuel cs

def footnoteSub (s : Chars) : Chars := footGo s.length s

def crafting_banner : String := "BasicBlocksToolsDefenceMechanismFoodOtherDyeWoolBrewing"

/-- web_scraping._clean_scraped_text, pass for pass.  (The second loop of
_cleanup-style edit artifacts does not occur here; this is the text cleaner.) -/
def cleanScrapedTextL (text : Chars) : Chars :=
  let t1 := secSub "H2: Contents".data ["H2: ".data] text
  let t2 := unwanted_h2_sections.foldl
    (fun t sec => secSub ("H2: " ++ sec).data ["H2: ".data] t) t1
  let t3 := unwanted_h3_sections.foldl
    (fun t sec => secSub ("H3: " ++ sec).data ["H3: ".data, "H2: ".data] t) t2
  let t4 := footnoteSub t3
  let t5 :=
    if isInfB crafting_banner.data t4 then
      pyReplace "[Back to top]".data []
        (pyReplace " | Image".data [] (pyReplace crafting_banner.data [] t4))
    else t4
  pyStrip t5

/-- web_scraping._clean_scraped_text at the `String` level. -/
def clean_scraped_text (text : String) : String := String.mk (cleanScrapedTextL text.data)

theorem ciPre_self_append {p t : Chars} : ciPre p (p ++ t) = true := by
  induction p with
  | nil => rfl
  | cons a as ih => simp [ciPre, ih]

theorem secSkip_to_stop {bnds : List Chars} :
    ∀ body rest : Chars,
      (∀ i < body.length, secBoundary bnds ((body ++ rest).drop i) = false) →
      secBoundary bnds rest = true →
      secSkip bnds (body ++ rest) = rest := by
  intro body
  induction body with
  | nil =>
    intro rest _ hstop
    cases rest with
    | nil => rfl
    | cons r rs => simp [secSkip, hstop]
  | cons b body1 ih =>
    intro rest hb hstop
    have h0 := hb 0 (by simp)
    simp only [List.drop_zero] at h0
    have h0t : secBoundary bnds (b :: (body1 ++ rest)) = false := by simpa using h0
    show secSkip bnds (b :: (body1 ++ rest)) = rest
    simp only [secSkip, h0t, if_false]
    exact ih rest (fun i hi => by
      have := hb (i + 1) (by simp only [List.length_cons]; omega)
      simpa using this) hstop

theorem secSubGo_id {hdr : Chars} {bnds : List Chars} :
    ∀ fuel : Nat, ∀ s : Chars, (∀ i < s.length, ciPre hdr (s.drop i) = false) →
      secSubGo hdr bnds fuel s = s := by
  intro fuel
  induction fuel with
  | zero => intro s _; cases s <;> rfl
  | succ f ih =>
    intro s h
    cases s with
    | nil => rfl
    | cons c cs =>
      have h0 := h 0 (by simp)
      simp only [List.drop_zero] at h0
      simp only [secSubGo, h0, if_false]
      rw [ih cs (fun i hi => by
        have := h (i + 1) (by simp only [List.length_cons]; omega)
        simpa using this)]
      simp

/-- One section-removal pass deletes exactly the span from the header up to
(but not including) the first boundary, and leaves the remainder alone when
the header matches nowhere in it. -/
theorem secSub_removes {hdr : Chars} {bnds : List Chars} (hne : hdr ≠ [])
    (body rest : Chars)
    (hbody : ∀ i < body.length, secBoundary bnds ((body ++ rest).drop i) = false)
    (hstop : secBoundary bnds rest = true)
    (hafter : ∀ i < rest.length, ciPre hdr (rest.drop i) = false) :
    secSub hdr bnds (hdr ++ body ++ rest) = rest := by
  obtain ⟨hc, hcs, hh⟩ : ∃ c cs, hdr = c :: cs := by
    cases hdr with
    | nil => exact absurd rfl hne
    | cons a as => exact ⟨a, as, rfl⟩
  have ht : hdr ++ body ++ rest = hc :: (hcs ++ (body ++ rest)) := by
    rw [hh]
    simp [List.append_assoc]
  rw [ht]
  show secSubGo hdr bnds ((hcs ++ (body ++ rest)).length + 1)
      (hc :: (hcs ++ (body ++ rest))) = rest
  have hmatch : ciPre hdr (hc :: (hcs ++ (body ++ rest))) = true := by
    rw [← ht]
    rw [List.append_assoc]
    exact ciPre_self_append
  simp only [secSubGo, hmatch]
  simp only [if_true]
  have hdrop : (hc :: (hcs ++ (body ++ rest))).drop hdr.length = body ++ rest := by
    rw [← ht, List.append_assoc, List.drop_left]
  rw [hdrop, secSkip_to_stop body rest hbody hstop]
  exact secSubGo_id _ rest hafter

/-- **C7.** For each name in the H3 denylist, the section-removal pass deletes
the span from the `H3: <name>` header up to (but not including) the next
`H3: ` or `H2: ` header (case-insensitively, across newlines): the following
H2 section survives verbatim. -/
theorem c7_h3_denylist_removal (name : String) (hname : name ∈ unwanted_h3_sections)
    (body tail : Chars)
    (hbody : ∀ i < body.length,
      secBoundary ["H3: ".data, "H2: ".data] ((body ++ ("H2: ".data ++ tail)).drop i) = false)
    (hafter : ∀ i < ("H2: ".data ++ tail).length,
      ciPre ("H3: " ++ name).data (("H2: ".data ++ tail).drop i) = false) :
    secSub ("H3: " ++ name).data ["H3: ".data, "H2: ".data]
        (("H3: " ++ name).data ++ body ++ ("H2: ".data ++ tail)) =
      "H2: ".data ++ tail := by
  have hne : ("H3: " ++ name).data ≠ [] := by
    rw [String.data_append]
    simp
  refine secSub_removes hne body _ hbody ?_ hafter
  show ([ "H3: ".data, "H2: ".data ] : List Chars).any
      (fun b => ciPre b ("H2: ".data ++ tail)) = true
  simp only [List.any_cons, List.any_nil, Bool.or_eq_true]
  exact Or.inr (Or.inl ciPre_self_append)

/-- Witness for C7 at a concrete denylisted section. -/
theorem c7_h3_denylist_removal_witness :
    secSub ("H3: " ++ "Unused mobs").data ["H3: ".data, "H2: ".data]
        (("H3: " ++ "Unused mobs").data ++ "\nzombie horse\n".data ++
          ("H2: ".data ++ "Trading\nbar".data)) =
      "H2: ".data ++ "Trading\nbar".data :=
  c7_h3_denylist_removal "Unused mobs" (by decide) "\nzombie horse\n".data
    "Trading\nbar".data (by decide) (by decide)

/-! ### HTML document model (the parsed BeautifulSoup tree) -/

/-- A parsed HTML node: a text node, or an element with a tag name, a class
list, further attributes, and children.  A soup (document) is a list of
top-level nodes. -/
inductive Node where
  | text : String → Node
  | elem (name : String) (classes : List String) (attrs : List (String × String))
      (children : List Node) : Node

def Node.tagName : Node → String
  | .text _ => ""
  | .elem n _ _ _ => n

def Node.classList : Node → List String
  | .text _ => []
  | .elem _ c _ _ => c

def Node.childNodes : Node → List Node
  | .text _ => []
  | .elem _ _ _ cs => cs

def Node.isElem : Node → Bool
  | .text _ => false
  | .elem _ _ _ _ => true

/-- `tag.get(key)`: attribute lookup. -/
def Node.attr (n : Node) (key : String) : Option String :=
  match n with
  | .text _ => none
  | .elem _ _ attrs _ => (attrs.find? (fun kv => kv.1 == key)).map (fun kv => kv.2)

mutual

def nodeStrings : Node → List String
  | .text s => [s]
  | .elem _ _ _ cs => nodesStrings cs

def nodesStrings : List Node → List String
  | [] => []
  | c :: cs => nodeStrings c ++ nodesStrings cs

end

/-- BeautifulSoup `get_text(separator, strip)`: join all descendant strings
with the separator; with strip, each string is stripped and empty results are
skipped. -/
def getText (n : Node) (sep : String) (strip : Bool) : String :=
  if strip then
    String.intercalate sep (((nodeStrings n).map pyStripS).filter (fun t => t ≠ ""))
  else
    String.intercalate sep (nodeStrings n)

mutual

def nodeDescElems : Node → List Node
  | .text _ => []
  | .elem _ _ _ cs => nodesDescElems cs

def nodesDescElems : List Node → List Node
  | [] => []
  | c :: cs => (if c.isElem then [c] else []) ++ nodeDescElems c ++ nodesDescElems cs

end

/-- `element.find_all([names])`: all element descendants with one of the
names, in document order. -/
def findAllNamed (n : Node) (names : List String) : List Node :=
  (nodeDescElems n).filter (fun m => names.contains m.tagName)

/-- `element.find(name)`: first element descendant with the name. -/
def findNamed (n : Node) (name : String) : Option Node :=
  (nodeDescElems n).find? (fun m => m.tagName == name)

/-- `element.find(name, class_=cls)`. -/
def findNamedClass (n : Node) (name cls : String) : Option Node :=
  (nodeDescElems n).find? (fun m => m.tagName == name && m.classList.contains cls)

/-- `element.find_next_sibling(name, class_=cls)`, given the element's
following siblings. -/
def findSibNamedClass (sibs : List Node) (name cls : String) : Option Node :=
  sibs.find? (fun m => m.isElem && m.tagName == name && m.classList.contains cls)

/-- All elements of the document in document order (soup.find_all scope). -/
def soupAllElems (soup : List Node) : List Node := nodesDescElems soup

/-! ### web_scraping: per-element extraction rules -/

def icon_classes : List String := ["icon", "mob-icon"]

/-- web_scraping._extract_icon_label.  The sibling search runs over the
element's following siblings. -/
def extract_icon_label (el : Node) (sibs : List Node) : Option String :=
  if el.tagName ≠ "div" then none
  else if !(el.classList.any (fun c => icon_classes.contains c)) then none
  else
    match (findSibNamedClass sibs "div" "name").orElse
        (fun _ => findSibNamedClass sibs "div" "mob-name") with
    | some nameDiv =>
      let t := getText nameDiv "" true
      if t ≠ "" then some ("IMAGE_LABEL: " ++ t) else none
    | none =>
      match (findNamedClass el "div" "name").orElse
          (fun _ => findNamedClass el "div" "mob-name") with
      | some nameChild =>
        let t := getText nameChild "" true
        if t ≠ "" then some ("IMAGE_LABEL: " ++ t) else none
      | none =>
        let imgLabel : Option String :=
          match findNamed el "img" with
          | none => none
          | some img =>
            let label := match img.attr "alt" with
              | some a => if a ≠ "" then some a else img.attr "title"
              | none => img.attr "title"
            match label with
            | some l => if l ≠ "" then some l else none
            | none => none
        match imgLabel with
        | some l => some ("IMAGE_LABEL: " ++ l)
        | none =>
          let t := getText el "" true
          if t ≠ "" then some ("IMAGE_LABEL: " ++ t) else none

/-- web_scraping._extract_table_text. -/
def extract_table_text (el : Node) : Option String :=
  if el.tagName ≠ "table" then none
  else
    let rows := findAllNamed el ["tr"]
    let content := rows.filterMap (fun row =>
      let cells := findAllNamed row ["th", "td"]
      if cells.isEmpty then none
      else
        let rowText := String.intercalate " | "
          ((cells.map (fun c => getText c "" true)).filter (fun t => t ≠ ""))
        if rowText ≠ "" then some rowText else none)
    if content.isEmpty then none
    else some ("\nTABLE:\n" ++ String.intercalate "\n" content ++ "\n")

/-- web_scraping._extract_header_text. -/
def extract_header_text (el : Node) : Option String :=
  if !((["h1", "h2", "h3", "h4", "h5", "h6"] : List String).contains el.tagName) then none
  else
    let t := getText el "" true
    if t ≠ "" then some (el.tagName.toUpper ++ ": " ++ t) else none

/-- web_scraping._extract_list_text. -/
def extract_list_text (el : Node) (is_tutorials_page : Bool) : Option String :=
  if !((["ul", "ol"] : List String).contains el.tagName) then none
  else
    let items := findAllNamed el ["li"]
    if items.isEmpty then none
    else
      let content := items.filterMap (fun li =>
        if is_tutorials_page then
          match findNamed li "a" with
          | some a =>
            match a.attr "href" with
            | some href =>
              if href ≠ "" then
                let linkText := getText a " " true
                let href2 := if isPre ['/'] href.data
                  then "https://minecraft.wiki" ++ href else href
                some ("- [" ++ linkText ++ "](" ++ href2 ++ ")")
              else
                let t := getText li " " true
                if t ≠ "" then some ("- " ++ t) else none
            | none =>
              let t := getText li " " true
              if t ≠ "" then some ("- " ++ t) else none
          | none =>
            let t := getText li " " true
            if t ≠ "" then some ("- " ++ t) else none
        else
          let t := getText li " " true
          if t ≠ "" then some ("- " ++ t) else none)
      if content.isEmpty then none
      else some (String.intercalate "\n" content)

/-- web_scraping._extract_paragraph_text. -/
def extract_paragraph_text (el : Node) (is_crafting_site : Bool) : Option String :=
  if el.tagName ≠ "p" then none
  else if is_crafting_site then none
  else
    let t := getText el " " true
    if t ≠ "" then some t else none

/-! ### web_scraping: container selection and intro capture -/

/-- The union of the selectors in
`soup.select_one("main, .mw-parser-output, #content, body")`. -/
def mainSelector (n : Node) : Bool :=
  n.tagName == "main" || n.classList.contains "mw-parser-output" ||
    n.attr "id" == some "content" || n.tagName == "body"

/-- `select_one` returns the first element in document order matching any
selector of the group. -/
def select_one_main (soup : List Node) : Option Node :=
  (soupAllElems soup).find? mainSelector

/-- Fuel-driven worker for `re.sub(r"\s{2,}", " ", s)`: each maximal run of
two or more whitespace characters becomes one space; the fuel is always the
input length. -/
def wsCollapseGo : Nat → Chars → Chars
  | _, [] => []
  | 0, s => s
  | fuel + 1, c :: cs =>
    match cs with
    | [] => [c]
    | d :: rest =>
      if isPySpace c && isPySpace d then
        ' ' :: wsCollapseGo fuel (rest.dropWhile isPySpace)
      else c :: wsCollapseGo fuel cs

def wsCollapse (s : Chars) : Chars := wsCollapseGo s.length s

/-- The paragraph collection of the no-table branch of
web_scraping._extract_intro_before_first_table. -/
def introParas (main : Node) : List String :=
  (findAllNamed main ["p"]).filterMap (fun pnode =>
    let txt := getText pnode " " true
    if txt ≠ "" then some txt else none)

/-- The sibling scan of web_scraping._extract_intro_before_first_table:
walk the container's direct children, stop at the first table, collect
non-empty p/div texts. -/
def introScan : List Node → List String
  | [] => []
  | el :: rest =>
    if el.isElem && el.tagName == "table" then []
    else
      (if el.isElem && (el.tagName == "p" || el.tagName == "div") then
        (let txt := getText el " " true
         if txt ≠ "" then [txt] else [])
      else []) ++ introScan rest

/-- web_scraping._extract_intro_before_first_table. -/
def extract_intro_before_first_table (soup : List Node) : String :=
  match select_one_main soup with
  | none => ""
  | some main =>
    match findNamed main "table" with
    | none =>
      String.mk (pyStrip (wsCollapse (String.intercalate " " (introParas main)).data))
    | some _ =>
      String.mk (pyStrip (wsCollapse (String.intercalate " " (introScan main.childNodes)).data))

/-! ### web_scraping: the crafting-site predicate (urllib.parse.urlparse) -/

/-- Characters allowed in a URL scheme (ascii letters, digits, `+`, `-`, `.`). -/
def isSchemeChar (c : Char) : Bool :=
  ('a' ≤ c && c ≤ 'z') || ('A' ≤ c && c ≤ 'Z') || ('0' ≤ c && c ≤ '9') ||
    c = '+' || c = '-' || c = '.'

/-- Python `str.find(':')`. -/
def idxOfColon : Chars → Option Nat
  | [] => none
  | c :: cs => if c = ':' then some 0 else (idxOfColon cs).map (fun i => i + 1)

/-- The scheme-stripping step of urlsplit: when the text before the first
colon is a well-formed scheme, continue after the colon. -/
def afterScheme (url : Chars) : Chars :=
  match idxOfColon url with
  | none => url
  | some i =>
    if 0 < i &&
        (match url.head? with
         | some c0 => c0.isAlpha && c0.toNat < 128
         | none => false) &&
        (url.take i).all isSchemeChar then
      url.drop (i + 1)
    else url

/-- `urlparse(url).netloc`, including the mismatched-bracket ValueError of
urlsplit (any raise is caught by the caller and mapped to False; further
CPython validations raise on inputs outside this development's scope and
would land in the same error case). -/
def netlocOf (url : String) : Except Unit String :=
  let u := afterScheme url.data
  if isPre ['/', '/'] u then
    let nl := (u.drop 2).takeWhile (fun c => !(c = '/' || c = '?' || c = '#'))
    if (nl.contains '[' && !nl.contains ']') || (nl.contains ']' && !nl.contains '[') then
      Except.error ()
    else Except.ok (String.mk nl)
  else Except.ok ""

/-- web_scraping._is_minecraft_crafting_webpage: try/except around urlparse,
then a lowercased substring test. -/
def is_minecraft_crafting_webpage (url : String) : Bool :=
  match netlocOf url with
  | Except.error _ => false
  | Except.ok host => isInfB "minecraftcrafting.info".data (pyLower host.data)

/-! ### web_scraping: page walk -/

def isEditArtifact (n : Node) : Bool :=
  n.isElem && (n.tagName == "span" || n.tagName == "a") &&
    (n.classList.contains "mw-editsection" || n.classList.contains "mw-editsection-bracket")

mutual

def stripEditN : Node → Node
  | .text s => .text s
  | .elem n c a cs => .elem n c a (stripEditL cs)

def stripEditL : List Node → List Node
  | [] => []
  | c :: cs => (if isEditArtifact c then [] else [stripEditN c]) ++ stripEditL cs

end

/-- web_scraping._cleanup_edit_sections: decompose every span/a carrying an
edit-section class.  (The source's second loop looks for edit-section spans
inside headline spans, which the first loop has already decomposed, so it is
a no-op.) -/
def cleanup_edit_sections (soup : List Node) : List Node := stripEditL soup

def relevant_names : List String :=
  ["p", "table", "h1", "h2", "h3", "h4", "h5", "h6", "ul", "ol", "li", "div"]

mutual

def nodeRelevant : Node → List (Node × List Node)
  | .text _ => []
  | .elem _ _ _ cs => nodesRelevant cs

def nodesRelevant : List Node → List (Node × List Node)
  | [] => []
  | c :: cs =>
    (if c.isElem && relevant_names.contains c.tagName then [(c, cs)] else [])
      ++ nodeRelevant c ++ nodesRelevant cs

end

/-- web_scraping._get_relevant_elements, in document order, each element
paired with its following siblings (the context find_next_sibling uses). -/
def soupRelevant (soup : List Node) : List (Node × List Node) := nodesRelevant soup

/-- The body of _scrape_page's extraction loop: the rules in priority order;
each rule returns either nothing or a non-empty string, so the loop's
truthiness tests coincide with the option structure. -/
def processElement (is_tutorials_page is_crafting_site : Bool)
    (p : Node × List Node) : Option String :=
  match extract_icon_label p.1 p.2 with
  | some t => some t
  | none =>
    match extract_table_text p.1 with
    | some t => some t
    | none =>
      match extract_header_text p.1 with
      | some t => some t
      | none =>
        match extract_list_text p.1 is_tutorials_page with
        | some t => some t
        | none => extract_paragraph_text p.1 is_crafting_site

def WIKI_PAGES : List (String × String) :=
  [("trading", "https://minecraft.wiki/w/Trading"),
   ("brewing", "https://minecraft.wiki/w/Brewing"),
   ("enchanting", "https://minecraft.wiki/w/Enchanting"),
   ("mobs", "https://minecraft.wiki/w/Mob"),
   ("blocks", "https://minecraft.wiki/w/Block"),
   ("items", "https://minecraft.wiki/w/Item"),
   ("crafting information", "https://minecraft.wiki/w/Crafting"),
   ("crafting recipes", "https://www.minecraftcrafting.info"),
   ("smelting", "https://minecraft.wiki/w/Smelting"),
   ("tutorials", "https://minecraft.wiki/w/Tutorials"),
   ("redstone", "https://minecraft.wiki/w/Redstone_circuits")]

/-- The fragment sequence (content_parts) produced by web_scraping._scrape_page
for a parsed document. -/
def scrape_parts (soup : List Node) (url : String) : List String :=
  let is_crafting_site := is_minecraft_crafting_webpage url
  let soup2 := cleanup_edit_sections soup
  let is_tutorials_page := url == "https://minecraft.wiki/w/Tutorials"
  let introPart :=
    if is_crafting_site then
      (let it := extract_intro_before_first_table soup2
       if it ≠ "" then [it] else [])
    else []
  introPart ++ (soupRelevant soup2).filterMap (processElement is_tutorials_page is_crafting_site)

/-- web_scraping._scrape_page on an already-fetched document. -/
def scrape_page_soup (soup : List Node) (url : String) : String :=
  String.intercalate "\n" (scrape_parts soup url)

/-- web_scraping._scrape_page, with the fetch collaborator passed in; an
error models requests.RequestException escaping from _fetch_soup. -/
def scrape_page (fetch : String → Except Unit (List Node)) (url : String) :
    Except Unit String :=
  match fetch url with
  | Except.error e => Except.error e
  | Except.ok soup => Except.ok (scrape_page_soup soup url)

/-- web_scraping._scrape_multiple_pages: per page, scrape then clean; a fetch
error is caught and recorded as empty content, and the loop continues. -/
def scrape_multiple_pages (fetch : String → Except Unit (List Node))
    (pages : List (String × String)) : List (String × String) :=
  pages.map (fun kv =>
    match scrape_page fetch kv.2 with
    | Except.ok content => (kv.1, clean_scraped_text content)
    | Except.error _ => (kv.1, ""))

/-! ### Claims about the page walk -/

theorem nodesDescElems_cons (c : Node) (cs : List Node) :
    nodesDescElems (c :: cs) =
      (if c.isElem then [c] else []) ++ nodeDescElems c ++ nodesDescElems cs := rfl

/-- The concrete document of the C1 counterexample: a body wrapping a main
region that holds an introductory paragraph followed by the first table. -/
def c1doc : List Node :=
  [Node.elem "body" [] [] [Node.elem "main" [] []
    [Node.elem "p" [] [] [Node.text "Intro text"], Node.elem "table" [] [] []]]]

/-- **C1 counterexample.** The document contains a main element, yet the
chosen container is the body (the first match in document order), and the
pre-table paragraph inside main is not collected: the intro comes out empty
instead of "Intro text". -/
theorem c1_container_counterexample :
    (∃ n ∈ soupAllElems c1doc, Node.tagName n = "main") ∧
    (select_one_main c1doc).map Node.tagName = some "body" ∧
    extract_intro_before_first_table c1doc = "" := by
  refine ⟨?_, by decide, by decide⟩
  decide

/-- **C1 amended.** `select_one` with a comma selector group returns the first
matching element in document order, not the first selector that has a match:
a body element at the top of the document is chosen even when a main element
exists inside it, and the pre-table sibling scan then runs over the body's
direct children, so paragraphs nested inside the main element are not
collected. -/
theorem c1_container_document_order (cls : List String)
    (attrs : List (String × String)) (children rest : List Node) :
    select_one_main (Node.elem "body" cls attrs children :: rest) =
      some (Node.elem "body" cls attrs children) ∧
    ∀ txt : String,
      extract_intro_before_first_table
        [Node.elem "body" [] [] [Node.elem "main" [] []
          [Node.elem "p" [] [] [Node.text txt], Node.elem "table" [] [] []]]] = "" := by
  constructor
  · have hsel : mainSelector (Node.elem "body" cls attrs children) = true := by
      simp [mainSelector, Node.tagName]
    show List.find? mainSelector
      (nodesDescElems (Node.elem "body" cls attrs children :: rest)) = _
    rw [nodesDescElems_cons]
    simp only [Node.isElem, if_true, List.singleton_append, List.cons_append]
    exact List.find?_cons_of_pos _ hsel
  · intro txt
    rfl

/-- **C2.** A div whose class set meets {icon, mob-icon}, for which the
name/mob-name resolution finds a div (first as a following sibling, else as a
descendant) whose text strips to empty, produces no fragment at all: the icon
rule emits nothing, and no lower-priority rule (table, header, list,
paragraph) matches the element either, so the per-element dispatch yields
nothing. -/
theorem c2_icon_rule_empty_name (el : Node) (sibs : List Node)
    (hdiv : el.tagName = "div")
    (hicon : el.classList.any (fun c => icon_classes.contains c) = true)
    (hname :
      (∃ nd, ((findSibNamedClass sibs "div" "name").orElse
          (fun _ => findSibNamedClass sibs "div" "mob-name")) = some nd ∧
          getText nd "" true = "") ∨
      (((findSibNamedClass sibs "div" "name").orElse
          (fun _ => findSibNamedClass sibs "div" "mob-name")) = none ∧
        ∃ nc, ((findNamedClass el "div" "name").orElse
          (fun _ => findNamedClass el "div" "mob-name")) = some nc ∧
          getText nc "" true = "")) :
    ∀ tut craft : Bool,
      extract_icon_label el sibs = none ∧
      extract_table_text el = none ∧
      extract_header_text el = none ∧
      extract_list_text el tut = none ∧
      extract_paragraph_text el craft = none ∧
      processElement tut craft (el, sibs) = none := by
  intro tut craft
  have hicon0 : extract_icon_label el sibs = none := by
    unfold extract_icon_label
    rw [hdiv, hicon]
    simp only [ne_eq, not_true_eq_false, if_false, Bool.not_true, Bool.false_eq_true]
    rcases hname with ⟨nd, hnd, hempty⟩ | ⟨hnone, nc, hnc, hempty⟩
    · rw [hnd]
      dsimp only
      rw [hempty]
      simp
    · rw [hnone]
      dsimp only
      rw [hnc]
      dsimp only
      rw [hempty]
      simp
  have htab : extract_table_text el = none := by
    unfold extract_table_text
    rw [hdiv]
    simp
  have hhdr : extract_header_text el = none := by
    unfold extract_header_text
    rw [hdiv]
    simp
  have hlst : extract_list_text el tut = none := by
    unfold extract_list_text
    rw [hdiv]
    simp
  have hpar : extract_paragraph_text el craft = none := by
    unfold extract_paragraph_text
    rw [hdiv]
    simp
  refine ⟨hicon0, htab, hhdr, hlst, hpar, ?_⟩
  unfold processElement
  rw [hicon0, htab, hhdr, hlst]
  exact hpar

/-- Witness for C2: an icon div whose following sibling is an empty name div. -/
theorem c2_icon_rule_empty_name_witness :
    (Node.elem "div" ["icon"] [] []).tagName = "div" ∧
    processElement false false
      (Node.elem "div" ["icon"] [] [], [Node.elem "div" ["name"] [] []]) = none :=
  ⟨rfl,
   (c2_icon_rule_empty_name (Node.elem "div" ["icon"] [] [])
      [Node.elem "div" ["name"] [] []] rfl (by decide)
      (Or.inl ⟨Node.elem "div" ["name"] [] [], rfl, rfl⟩) false false).2.2.2.2.2⟩

/-- The concrete nested-list document of the C5 counterexample. -/
def nestedListDoc : List Node :=
  [Node.elem "ul" [] [] [Node.elem "li" [] []
    [Node.text "Alpha", Node.elem "ul" [] [] [Node.elem "li" [] [] [Node.text "Beta"]]]]]

/-- **C5 counterexample.** The outer list's fragment already contains the
inner item text "Beta", and the inner list element produces a second fragment
containing it again: extraction duplicates nested list content. -/
theorem c5_nested_list_duplication_counterexample :
    scrape_parts nestedListDoc "https://minecraft.wiki/w/Mob" =
      ["- Alpha Beta\n- Beta", "- Beta"] ∧
    InfP "Beta".data ("- Alpha Beta\n- Beta").data ∧
    InfP "Beta".data ("- Beta").data := by
  refine ⟨by decide, ⟨"- Alpha ".data, "\n- Beta".data, by decide⟩,
    ⟨"- ".data, [], by decide⟩⟩

/-- **C9.** A fetch error on one page records that page with empty content and
does not disturb any other page: every successfully fetched page is still
scraped, cleaned, and recorded. -/
theorem c9_fetch_error_recorded (fetch : String → Except Unit (List Node))
    (pages : List (String × String)) (label url : String)
    (hmem : (label, url) ∈ pages) (hfail : fetch url = Except.error ()) :
    (label, "") ∈ scrape_multiple_pages fetch pages ∧
    ∀ l u : String, ∀ soup : List Node, (l, u) ∈ pages → fetch u = Except.ok soup →
      (l, clean_scraped_text (scrape_page_soup soup u)) ∈
        scrape_multiple_pages fetch pages := by
  constructor
  · refine List.mem_map.mpr ⟨(label, url), hmem, ?_⟩
    simp [scrape_page, hfail]
  · intro l u soup hm hok
    refine List.mem_map.mpr ⟨(l, u), hm, ?_⟩
    simp [scrape_page, hok]

/-- A two-page run whose first page fails to fetch. -/
def c9fetch : String → Except Unit (List Node) := fun u =>
  if u = "https://bad.example" then Except.error () else Except.ok []

def c9pages : List (String × String) :=
  [("broken", "https://bad.example"), ("ok", "https://good.example")]

/-- Witness for C9: the failing page is recorded empty and the healthy page is
still scraped, cleaned, and recorded. -/
theorem c9_fetch_error_recorded_witness :
    ("broken", "") ∈ scrape_multiple_pages c9fetch c9pages ∧
    ("ok", clean_scraped_text (scrape_page_soup [] "https://good.example")) ∈
      scrape_multiple_pages c9fetch c9pages :=
  have h := c9_fetch_error_recorded c9fetch c9pages "broken" "https://bad.example"
    (by simp [c9pages]) rfl
  ⟨h.1, h.2 "ok" "https://good.example" [] (by simp [c9pages]) rfl⟩

/-! ### C6: the table rule -/

def mkCell (s : String) : Node := Node.elem "td" [] [] [Node.text s]

def mkRow (cells : List String) : Node := Node.elem "tr" [] [] (cells.map mkCell)

def mkTable (rows : List (List String)) : Node := Node.elem "table" [] [] (rows.map mkRow)

/-- The table rule as the spec words it: one line per row that has at least
one non-empty (stripped) cell, non-empty cells joined by " | ", rows with no
non-empty cells skipped, and a TABLE: framed block only when a row survives. -/
def tableSpecFormat (rows : List (List String)) : Option String :=
  let lines := rows.filterMap (fun cells =>
    let ts := (cells.map pyStripS).filter (fun t => t ≠ "")
    if ts.isEmpty then none else some (String.intercalate " | " ts))
  if lines.isEmpty then none
  else some ("\nTABLE:\n" ++ String.intercalate "\n" lines ++ "\n")

theorem getText_mkCell (s : String) : getText (mkCell s) "" true = pyStripS s := by
  show String.intercalate "" (([s].map pyStripS).filter (fun t => t ≠ "")) = pyStripS s
  rw [List.map_cons, List.map_nil]
  by_cases h : pyStripS s = ""
  · rw [h]
    rfl
  · have hf : ([pyStripS s].filter (fun t => t ≠ "")) = [pyStripS s] := by
      simp [h]
    rw [hf]
    rfl

theorem findAll_mkRow (cells : List String) :
    findAllNamed (mkRow cells) ["th", "td"] = cells.map mkCell := by
  show (nodesDescElems (cells.map mkCell)).filter _ = _
  induction cells with
  | nil => rfl
  | cons c cs ih =>
    rw [List.map_cons, nodesDescElems_cons, List.filter_append, List.filter_append, ih]
    rfl

theorem cells_no_tr (cells : List String) :
    (nodesDescElems (cells.map mkCell)).filter
      (fun m => (["tr"] : List String).contains m.tagName) = [] := by
  induction cells with
  | nil => rfl
  | cons c cs ih =>
    rw [List.map_cons, nodesDescElems_cons, List.filter_append, List.filter_append, ih]
    rfl

theorem findAll_mkTable (rows : List (List String)) :
    findAllNamed (mkTable rows) ["tr"] = rows.map mkRow := by
  show (nodesDescElems (rows.map mkRow)).filter _ = _
  induction rows with
  | nil => rfl
  | cons r rs ih =>
    rw [List.map_cons, nodesDescElems_cons, List.filter_append, List.filter_append, ih]
    have hcells : nodeDescElems (mkRow r) = nodesDescElems (r.map mkCell) := rfl
    rw [hcells, cells_no_tr]
    rfl

theorem cells_getText (cells : List String) :
    (cells.map mkCell).map (fun c => getText c "" true) = cells.map pyStripS := by
  rw [List.map_map]
  exact List.map_congr_left (fun s _ => getText_mkCell s)

theorem intercalate_go_pre (sep : String) :
    ∀ ts : List String, ∀ acc : String,
      ∃ u : String, String.intercalate.go acc sep ts = acc ++ u := by
  intro ts
  induction ts with
  | nil =>
    intro acc
    exact ⟨"", (String.append_empty acc).symm⟩
  | cons a as ih =>
    intro acc
    rcases ih (acc ++ sep ++ a) with ⟨u, hu⟩
    refine ⟨sep ++ a ++ u, ?_⟩
    show String.intercalate.go (acc ++ sep ++ a) sep as = acc ++ (sep ++ a ++ u)
    rw [hu]
    simp [String.append_assoc]

theorem str_data_nil (t : String) (h : t.data = []) : t = "" := by
  have h2 : t = String.mk t.data := rfl
  rw [h2, h]

theorem intercalate_cons_ne (sep t : String) (ts : List String) (ht : t ≠ "") :
    String.intercalate sep (t :: ts) ≠ "" := by
  rcases intercalate_go_pre sep ts t with ⟨u, hu⟩
  show String.intercalate.go t sep ts ≠ ""
  rw [hu]
  intro hc
  apply ht
  have h2 := congrArg String.data hc
  rw [String.data_append] at h2
  exact str_data_nil t (List.append_eq_nil.mp (by simpa using h2)).1

theorem row_code_eq_spec (cells : List String) :
    (if (findAllNamed (mkRow cells) ["th", "td"]).isEmpty then none
     else
       if String.intercalate " | "
           (((findAllNamed (mkRow cells) ["th", "td"]).map
             (fun c => getText c "" true)).filter (fun t => t ≠ "")) ≠ "" then
         some (String.intercalate " | "
           (((findAllNamed (mkRow cells) ["th", "td"]).map
             (fun c => getText c "" true)).filter (fun t => t ≠ "")))
       else none) =
    (if ((cells.map pyStripS).filter (fun t => t ≠ "")).isEmpty then none
     else some (String.intercalate " | " ((cells.map pyStripS).filter (fun t => t ≠ "")))) := by
  rw [findAll_mkRow, cells_getText]
  cases cells with
  | nil => rfl
  | cons c cs =>
    have hne : (((c :: cs).map mkCell).isEmpty) = false := rfl
    rw [hne]
    simp only [Bool.false_eq_true, if_false]
    cases hts : ((c :: cs).map pyStripS).filter (fun t => t ≠ "") with
    | nil =>
      have h0 : String.intercalate " | " ([] : List String) = "" := rfl
      simp [h0]
    | cons t ts =>
      have htne : t ≠ "" := by
        have hmem : t ∈ ((c :: cs).map pyStripS).filter (fun t => t ≠ "") := by
          rw [hts]
          exact List.mem_cons_self t ts
        have := (List.mem_filter.mp hmem).2
        simpa using this
      have hne2 : String.intercalate " | " (t :: ts) ≠ "" :=
        intercalate_cons_ne " | " t ts htne
      simp [hne2]

/-- **C6.** The table rule: one " | "-joined line per row with at least one
non-empty cell, all-empty rows skipped, a "TABLE:"-framed block exactly when
a row survives — and the spec's concrete example: rows [["A","B"],["",""]]
yield a single-row block whose only line is "A | B". -/
theorem c6_table_rule :
    (∀ rows : List (List String),
      extract_table_text (mkTable rows) = tableSpecFormat rows) ∧
    extract_table_text (mkTable [["A", "B"], ["", ""]]) =
      some "\nTABLE:\nA | B\n" := by
  constructor
  · intro rows
    have hlines : (findAllNamed (mkTable rows) ["tr"]).filterMap (fun row =>
        if (findAllNamed row ["th", "td"]).isEmpty then none
        else
          if String.intercalate " | " (((findAllNamed row ["th", "td"]).map
              (fun c => getText c "" true)).filter (fun t => t ≠ "")) ≠ "" then
            some (String.intercalate " | " (((findAllNamed row ["th", "td"]).map
              (fun c => getText c "" true)).filter (fun t => t ≠ "")))
          else none) =
        rows.filterMap (fun cells =>
          if ((cells.map pyStripS).filter (fun t => t ≠ "")).isEmpty then none
          else some (String.intercalate " | "
            ((cells.map pyStripS).filter (fun t => t ≠ "")))) := by
      rw [findAll_mkTable]
      induction rows with
      | nil => rfl
      | cons r rs ih =>
        rw [List.map_cons, List.filterMap_cons, List.filterMap_cons, ih]
        rw [row_code_eq_spec r]
    unfold extract_table_text tableSpecFormat
    rw [if_neg (show ¬ ((mkTable rows).tagName ≠ "table") from fun hc => hc rfl)]
    dsimp only
    rw [hlines]
  · decide

/-! ### C10: totality and substring semantics of the crafting-site predicate -/

theorem takeWhile_append_stop (p : Char → Bool) :
    ∀ l₁ : Chars, ∀ c : Char, ∀ l₂ : Chars,
      (∀ x ∈ l₁, p x = true) → p c = false →
      (l₁ ++ c :: l₂).takeWhile p = l₁ := by
  intro l₁
  induction l₁ with
  | nil =>
    intro c l₂ _ hc
    simp [List.takeWhile_cons, hc]
  | cons a as ih =>
    intro c l₂ h1 hc
    have ha : p a = true := h1 a (List.mem_cons_self a as)
    simp [List.takeWhile_cons, ha,
      ih c l₂ (fun x hx => h1 x (List.mem_cons_of_mem a hx)) hc]

/-- **C10.** The crafting-site predicate is a total boolean substring test:
it is true exactly when the (lowercased) netloc extracted by urlparse contains
"minecraftcrafting.info" as a substring (false whenever urlparse raises), and
any well-formed host merely containing the designated domain is flagged. -/
theorem c10_crafting_predicate :
    (∀ url : String, is_minecraft_crafting_webpage url = true ↔
      ∃ host : String, netlocOf url = Except.ok host ∧
        InfP "minecraftcrafting.info".data (pyLower host.data)) ∧
    (∀ host : String,
      (∀ c ∈ host.data, c ≠ '/' ∧ c ≠ '?' ∧ c ≠ '#' ∧ c ≠ '[' ∧ c ≠ ']') →
      InfP "minecraftcrafting.info".data (pyLower host.data) →
      is_minecraft_crafting_webpage
        (String.mk ("http://".data ++ host.data ++ ['/'])) = true) := by
  constructor
  · intro url
    unfold is_minecraft_crafting_webpage
    cases h : netlocOf url with
    | error e =>
      simp [h]
    | ok host =>
      simp only [h]
      constructor
      · intro hb
        exact ⟨host, rfl, InfP_isInfB.mpr hb⟩
      · rintro ⟨h2, heq, hin⟩
        injection heq with hh
        rw [hh]
        exact InfP_isInfB.mp hin
  · intro host hchars hdom
    have hnet : netlocOf (String.mk ("http://".data ++ host.data ++ ['/'])) =
        Except.ok host := by
      unfold netlocOf
      rw [show (String.mk ("http://".data ++ host.data ++ ['/'])).data =
        "http://".data ++ host.data ++ ['/'] from rfl]
      rw [show afterScheme ("http://".data ++ host.data ++ ['/']) =
        '/' :: '/' :: (host.data ++ ['/']) from rfl]
      dsimp only
      rw [if_pos (show isPre ['/', '/'] ('/' :: '/' :: (host.data ++ ['/'])) = true
        from rfl)]
      rw [show ('/' :: '/' :: (host.data ++ ['/'])).drop 2 = host.data ++ ['/'] from rfl]
      have h1 : ∀ x ∈ host.data,
          (fun c : Char => !(c = '/' || c = '?' || c = '#')) x = true := by
        intro x hx
        have hc := hchars x hx
        simp [hc.1, hc.2.1, hc.2.2.1]
      have htw := takeWhile_append_stop
        (fun c : Char => !(c = '/' || c = '?' || c = '#')) host.data '/' []
        h1 (by decide)
      rw [htw]
      have hnb1 : ¬ '[' ∈ host.data := fun hm => (hchars '[' hm).2.2.2.1 rfl
      have hnb2 : ¬ ']' ∈ host.data := fun hm => (hchars ']' hm).2.2.2.2 rfl
      have hlb : host.data.contains '[' = false := by simpa using hnb1
      have hrb : host.data.contains ']' = false := by simpa using hnb2
      rw [if_neg (show ¬ ((host.data.contains '[' && !host.data.contains ']' ||
          host.data.contains ']' && !host.data.contains '[') = true) from by
        rw [hlb, hrb]
        simp)]
    unfold is_minecraft_crafting_webpage
    rw [hnet]
    exact InfP_isInfB.mp hdom

/-- Witness for C10 at a host that strictly contains the designated domain. -/
theorem c10_crafting_predicate_witness :
    (∀ c ∈ "sub.minecraftcrafting.info.evil.example".data,
        c ≠ '/' ∧ c ≠ '?' ∧ c ≠ '#' ∧ c ≠ '[' ∧ c ≠ ']') ∧
    is_minecraft_crafting_webpage
      (String.mk ("http://".data ++ "sub.minecraftcrafting.info.evil.example".data
        ++ ['/'])) = true :=
  ⟨by decide,
   c10_crafting_predicate.2 "sub.minecraftcrafting.info.evil.example" (by decide)
     (InfP_isInfB.mpr (by decide))⟩

/-! ### C5 amended: nested lists are extracted twice -/

def c5li_b (b : String) : Node := Node.elem "li" [] [] [Node.text b]

def c5ul_in (b : String) : Node := Node.elem "ul" [] [] [c5li_b b]

def c5li_a (a b : String) : Node := Node.elem "li" [] [] [Node.text a, c5ul_in b]

def c5ul_out (a b : String) : Node := Node.elem "ul" [] [] [c5li_a a b]

def c5doc (a b : String) : List Node := [c5ul_out a b]

theorem append_ne_left (a x : String) (ha : a ≠ "") : a ++ x ≠ "" := by
  intro hc
  apply ha
  have h2 := congrArg String.data hc
  rw [String.data_append] at h2
  exact str_data_nil a (List.append_eq_nil.mp (by simpa using h2)).1

theorem c5_getText_inner (b : String) (hb1 : pyStripS b = b) (hb2 : b ≠ "") :
    getText (c5li_b b) " " true = b := by
  show String.intercalate " " (([b].map pyStripS).filter (fun t => t ≠ "")) = b
  rw [List.map_cons, List.map_nil, hb1]
  have hf : [b].filter (fun t => t ≠ "") = [b] := by simp [hb2]
  rw [hf]
  rfl

theorem c5_getText_outer (a b : String) (ha1 : pyStripS a = a) (ha2 : a ≠ "")
    (hb1 : pyStripS b = b) (hb2 : b ≠ "") :
    getText (c5li_a a b) " " true = a ++ " " ++ b := by
  show String.intercalate " " (([a, b].map pyStripS).filter (fun t => t ≠ "")) =
    a ++ " " ++ b
  rw [List.map_cons, List.map_cons, List.map_nil, ha1, hb1]
  have hf : [a, b].filter (fun t => t ≠ "") = [a, b] := by simp [ha2, hb2]
  rw [hf]
  rfl

theorem c5_list_inner (b : String) (hb1 : pyStripS b = b) (hb2 : b ≠ "") :
    extract_list_text (c5ul_in b) false = some ("- " ++ b) := by
  have step : extract_list_text (c5ul_in b) false =
      (if ([c5li_b b].filterMap (fun li =>
          if getText li " " true ≠ "" then some ("- " ++ getText li " " true)
          else none)).isEmpty then none
       else some (String.intercalate "\n" ([c5li_b b].filterMap (fun li =>
          if getText li " " true ≠ "" then some ("- " ++ getText li " " true)
          else none)))) := rfl
  rw [step]
  simp only [List.filterMap_cons, List.filterMap_nil]
  rw [c5_getText_inner b hb1 hb2]
  rw [if_pos hb2]
  rfl

theorem c5_list_outer (a b : String) (ha1 : pyStripS a = a) (ha2 : a ≠ "")
    (hb1 : pyStripS b = b) (hb2 : b ≠ "") :
    extract_list_text (c5ul_out a b) false =
      some ("- " ++ (a ++ " " ++ b) ++ "\n" ++ ("- " ++ b)) := by
  have step : extract_list_text (c5ul_out a b) false =
      (if ([c5li_a a b, c5li_b b].filterMap (fun li =>
          if getText li " " true ≠ "" then some ("- " ++ getText li " " true)
          else none)).isEmpty then none
       else some (String.intercalate "\n" ([c5li_a a b, c5li_b b].filterMap (fun li =>
          if getText li " " true ≠ "" then some ("- " ++ getText li " " true)
          else none)))) := rfl
  rw [step]
  simp only [List.filterMap_cons, List.filterMap_nil]
  rw [c5_getText_outer a b ha1 ha2 hb1 hb2, c5_getText_inner b hb1 hb2]
  rw [if_pos (show (a ++ " " ++ b) ≠ "" from
    append_ne_left (a ++ " ") b (append_ne_left a " " ha2))]
  rw [if_pos hb2]
  rfl

/-- **C5 amended.** Every list element, nested ones included, is processed on
its own, so the item texts of a nested list are extracted twice: once inside
the outer list's fragment (the outer item's text includes its nested list) and
once in the separate fragment of the inner list element. -/
theorem c5_nested_list_duplication (a b : String)
    (ha1 : pyStripS a = a) (ha2 : a ≠ "") (hb1 : pyStripS b = b) (hb2 : b ≠ "") :
    scrape_parts (c5doc a b) "https://minecraft.wiki/w/Mob" =
      ["- " ++ (a ++ " " ++ b) ++ "\n" ++ ("- " ++ b), "- " ++ b] ∧
    InfP b.data ("- " ++ (a ++ " " ++ b) ++ "\n" ++ ("- " ++ b)).data ∧
    InfP b.data ("- " ++ b).data := by
  refine ⟨?_, ⟨("- " ++ (a ++ " " ++ b) ++ "\n" ++ "- ").data, [], by
    simp [String.data_append]⟩, ⟨"- ".data, [], by simp [String.data_append]⟩⟩
  have hUL : processElement false false (c5ul_out a b, ([] : List Node)) =
      some ("- " ++ (a ++ " " ++ b) ++ "\n" ++ ("- " ++ b)) := by
    simp only [processElement,
      show extract_icon_label (c5ul_out a b) [] = none from rfl,
      show extract_table_text (c5ul_out a b) = none from rfl,
      show extract_header_text (c5ul_out a b) = none from rfl,
      c5_list_outer a b ha1 ha2 hb1 hb2]
  have hULin : processElement false false (c5ul_in b, ([] : List Node)) =
      some ("- " ++ b) := by
    simp only [processElement,
      show extract_icon_label (c5ul_in b) [] = none from rfl,
      show extract_table_text (c5ul_in b) = none from rfl,
      show extract_header_text (c5ul_in b) = none from rfl,
      c5_list_inner b hb1 hb2]
  have hmain : scrape_parts (c5doc a b) "https://minecraft.wiki/w/Mob" =
      [(c5ul_out a b, ([] : List Node)), (c5li_a a b, []), (c5ul_in b, []),
        (c5li_b b, [])].filterMap (processElement false false) := rfl
  rw [hmain]
  simp only [List.filterMap_cons, List.filterMap_nil, hUL, hULin,
    show processElement false false (c5li_a a b, ([] : List Node)) = none from rfl,
    show processElement false false (c5li_b b, ([] : List Node)) = none from rfl]

/-- Witness for the amended C5 at concrete item texts. -/
theorem c5_nested_list_duplication_witness :
    (pyStripS "Trident" = "Trident" ∧ pyStripS "Drowned" = "Drowned") ∧
    scrape_parts (c5doc "Trident" "Drowned") "https://minecraft.wiki/w/Mob" =
      ["- " ++ ("Trident" ++ " " ++ "Drowned") ++ "\n" ++ ("- " ++ "Drowned"),
        "- " ++ "Drowned"] :=
  ⟨⟨by decide, by decide⟩,
   (c5_nested_list_duplication "Trident" "Drowned" (by decide) (by decide)
      (by decide) (by decide)).1⟩

end MGenie
